import Mathlib

/-!
Verification development for the hottbox tensor-algebra core.

Matrices and dense N-way arrays are embedded shallowly: a matrix is a
row-major flat list of rationals together with its number of rows and
columns; an N-way array is a row-major flat list together with its shape.
Numpy reshape is the identity on the row-major buffer, and numpy moveaxis
is the corresponding permutation of flat indices, expressed below through
a row-major multi-index encode/decode pair.  Fallible operations return
Except String.
-/

namespace Hottbox

/-- A dense 2D matrix over ℚ: row-major flat data of length rows * cols. -/
structure Mat where
  rows : Nat
  cols : Nat
  data : List ℚ
  deriving DecidableEq, Repr

/-- Entry at row i, column j (0 outside the stored buffer, as all claims
concern well-formed matrices whose buffer length is rows * cols). -/
def Mat.entry (M : Mat) (i j : Nat) : ℚ :=
  M.data.getD (i * M.cols + j) 0

/-- Column j of a matrix, as the list of its rows entries. -/
def Mat.col (M : Mat) (j : Nat) : List ℚ :=
  (List.range M.rows).map fun i => M.entry i j

/-- A matrix is well formed when its buffer has exactly rows * cols entries. -/
def Mat.wf (M : Mat) : Prop :=
  M.data.length = M.rows * M.cols

/-- np.einsum i,j->ij of two vectors followed by ravel: the Kronecker
product of two vectors as flat lists. -/
def kronVec (u v : List ℚ) : List ℚ :=
  u.flatMap fun x => v.map fun y => x * y

/-- The accumulation loop of khatri_rao for column i: temp starts as the
i-th column of the first matrix and is combined with the i-th column of
every further matrix via the vector Kronecker product. -/
def khatriRaoCol (ms : List Mat) (i : Nat) : List ℚ :=
  match ms with
  | [] => []
  | m0 :: rest => rest.foldl (fun temp m => kronVec temp (m.col i)) (m0.col i)

/-- The two preprocessing lines shared verbatim by khatri_rao, hadamard
and kronecker in operations.py: first the skip filter (the Python
comprehension keeping all indices different from skip_matrix equals
List.eraseIdx for a non-negative index, removing nothing when the index
is out of range), then the reversal. -/
def applySkipRev (matrices : List Mat) (skip_matrix : Option Nat) (reverse : Bool) :
    List Mat :=
  let ms1 := match skip_matrix with
    | none => matrices
    | some k => matrices.eraseIdx k
  if reverse then ms1.reverse else ms1

/-- Whether every matrix of a list has the same column count as the first
one: the check performed by the accumulation loop of khatri_rao. -/
def colsOk : List Mat → Bool
  | [] => true
  | m0 :: rest => rest.all fun m => m.cols == m0.cols

/-- khatri_rao from operations.py.  The length check on the ORIGINAL list
comes first; then the skip filter and the reversal; then the column-count
check of every later matrix against the first and the row-count product;
finally the result matrix is assembled column by column, entry (r, c)
being position r of the Kronecker-product column c. -/
def khatri_rao (matrices : List Mat) (skip_matrix : Option Nat) (reverse : Bool) :
    Except String Mat :=
  if matrices.length < 2 then
    Except.error "khatri_roa product requires a list of at least 2 matrices"
  else
    match applySkipRev matrices skip_matrix reverse with
    | [] => Except.error "IndexError"
    | m0 :: rest =>
      if rest.all fun m => m.cols == m0.cols then
        let n_rows := rest.foldl (fun r m => r * m.rows) m0.rows
        Except.ok
          { rows := n_rows
            cols := m0.cols
            data := (List.range (n_rows * m0.cols)).map fun idx =>
              (khatriRaoCol (m0 :: rest) (idx % m0.cols)).getD (idx / m0.cols) 0 }
      else Except.error "All matrices must have the same number of columns."

/-- The description the spec gives of the khatri_rao output columns: the
i-th column is the Kronecker product of the i-th columns of the inputs,
associated left to right.  Stated from the spec words, to be compared
with the column extracted from the khatri_rao result. -/
def specKhatriRaoColumn (ms : List Mat) (i : Nat) : List ℚ :=
  match ms with
  | [] => []
  | m0 :: rest => (rest.map fun m => m.col i).foldl kronVec (m0.col i)

/-- np.multiply on two same-shape matrices (elementwise product); shapes
that differ are rejected (numpy broadcasting beyond identical shapes is
not exercised by this repository and not modelled). -/
def multiplyMat (A B : Mat) : Except String Mat :=
  if A.rows = B.rows ∧ A.cols = B.cols then
    Except.ok { rows := A.rows, cols := A.cols, data := A.data.zipWith (· * ·) B.data }
  else Except.error "operands could not be broadcast together"

/-- hadamard from operations.py: skip filter, then reversal, then
functools.reduce of np.multiply (a left fold; reducing an empty list
fails, as reduce without an initial value does). -/
def hadamard (matrices : List Mat) (skip_matrix : Option Nat) (reverse : Bool) :
    Except String Mat :=
  match applySkipRev matrices skip_matrix reverse with
  | [] => Except.error "reduce of empty sequence with no initial value"
  | m0 :: rest => rest.foldlM multiplyMat m0

/-- np.kron of two 2D matrices: block structure, entry (i, j) of the
result is A (i / B.rows) (j / B.cols) * B (i % B.rows) (j % B.cols). -/
def kron2 (A B : Mat) : Mat :=
  { rows := A.rows * B.rows
    cols := A.cols * B.cols
    data := (List.range (A.rows * B.rows * (A.cols * B.cols))).map fun idx =>
      let i := idx / (A.cols * B.cols)
      let j := idx % (A.cols * B.cols)
      A.entry (i / B.rows) (j / B.cols) * B.entry (i % B.rows) (j % B.cols) }

/-- kronecker from operations.py: skip filter, then reversal, then np.kron
accumulated left to right starting from the first matrix. -/
def kronecker (matrices : List Mat) (skip_matrix : Option Nat) (reverse : Bool) :
    Except String Mat :=
  match applySkipRev matrices skip_matrix reverse with
  | [] => Except.error "IndexError"
  | m0 :: rest => Except.ok (rest.foldl kron2 m0)

/-- A dense N-way array over ℚ: row-major flat data plus its shape. -/
@[ext]
structure NDArray where
  shape : List Nat
  data : List ℚ
  deriving DecidableEq, Repr

/-- An N-way array is well formed when its buffer has exactly prod(shape)
entries. -/
def NDArray.wf (T : NDArray) : Prop :=
  T.data.length = T.shape.prod

/-- Row-major flat index of a multi-index: with shape d :: ds and
multi-index i :: is it is i * prod(ds) + encode of the rest. -/
def encodeIdx : List Nat → List Nat → Nat
  | [], _ => 0
  | _ :: _, [] => 0
  | _ :: ds, i :: is => i * ds.prod + encodeIdx ds is

/-- Row-major multi-index of a flat index. -/
def decodeIdx : List Nat → Nat → List Nat
  | [], _ => []
  | _ :: ds, n => n / ds.prod :: decodeIdx ds (n % ds.prod)

/-- unfold from operations.py.  np.moveaxis(tensor, mode, 0) permutes the
row-major buffer so that the multi-index i_mode :: rest of the moved
shape reads the source at rest with i_mode reinserted at position mode;
np.reshape to (shape[mode], -1) is the identity on that buffer.  The
result is the matrix with shape[mode] rows and prod(remaining dims)
columns. -/
def unfold (tensor : NDArray) (mode : Nat) : Mat :=
  let fs := tensor.shape.getD mode 0 :: tensor.shape.eraseIdx mode
  { rows := tensor.shape.getD mode 0
    cols := (tensor.shape.eraseIdx mode).prod
    data := (List.range fs.prod).map fun k =>
      let midx := decodeIdx fs k
      tensor.data.getD (encodeIdx tensor.shape ((midx.drop 1).insertIdx mode (midx.headD 0))) 0 }

/-- fold from operations.py.  np.reshape(matrix, full_shape) with
full_shape = shape[mode] :: shape.eraseIdx mode is the identity on the
row-major buffer, and np.moveaxis(-, 0, mode) permutes it so that the
entry at multi-index midx of the final shape reads the buffer at
multi-index midx[mode] :: midx.eraseIdx mode of full_shape. -/
def fold (matrix : Mat) (mode : Nat) (shape : List Nat) : NDArray :=
  { shape := shape
    data := (List.range shape.prod).map fun n =>
      let midx := decodeIdx shape n
      matrix.data.getD
        (encodeIdx (shape.getD mode 0 :: shape.eraseIdx mode)
          (midx.getD mode 0 :: midx.eraseIdx mode)) 0 }

/-- np.dot of two 2D matrices: entry (i, j) is the sum over k of
A i k * B k j, contracting over the column count of A (the claims only
exercise conformable inputs, where A.cols = B.rows). -/
def matMul (A B : Mat) : Mat :=
  { rows := A.rows
    cols := B.cols
    data := (List.range (A.rows * B.cols)).map fun idx =>
      let i := idx / B.cols
      let j := idx % B.cols
      ((List.range A.cols).map fun k => A.entry i k * B.entry k j).sum }

/-- mode_n_product from operations.py: new_shape is the tensor shape with
the entry at position mode replaced by the row count of the matrix (a
Python list assignment, List.set here), and the result is
fold(np.dot(matrix, unfold(tensor, mode)), mode, new_shape).  The 2D
check of the source cannot fail in this embedding because Mat is 2D by
construction. -/
def mode_n_product (tensor : NDArray) (matrix : Mat) (mode : Nat) : NDArray :=
  let new_shape := tensor.shape.set mode matrix.rows
  fold (matMul matrix (unfold tensor mode)) mode new_shape

/-- The Python built-in abs on rationals: the negation for negative
arguments (definitionally computable; equal to the Mathlib absolute
value by ratAbs_eq_abs below). -/
def ratAbs (x : ℚ) : ℚ :=
  if x < 0 then -x else x

/-- Modelled from the spec: the derived read-only property
BaseCPD.converged of the missing cpd.py — false when fewer than two cost
values are recorded, otherwise true iff the absolute difference of the
last two recorded cost values is below tol. -/
def converged (cost : List ℚ) (tol : ℚ) : Bool :=
  if cost.length < 2 then false
  else ratAbs (cost.getD (cost.length - 1) 0 - cost.getD (cost.length - 2) 0) < tol

/-- The last recorded cost value (0 for an empty history). -/
def lastCost (cost : List ℚ) : ℚ :=
  cost.getD (cost.length - 1) 0

/-- Modelled from the spec: the iteration loop of CPD.decompose of the
missing cpd.py, abstracted over the per-iteration cost oracle costSeq
(iteration k of the deterministic ALS sweep yields cost costSeq k).  Each
pass appends the next cost value and then checks termination in priority
order: last cost at most epsilon stops without convergence; the two-point
tol criterion stops with the converged flag set; otherwise the loop runs
until the fuel (max_iter) is spent, returning the flag false. -/
def cpdGo (costSeq : Nat → ℚ) (epsilon tol : ℚ) : Nat → List ℚ → List ℚ × Bool
  | 0, acc => (acc, false)
  | fuel + 1, acc =>
    let c := costSeq acc.length
    let acc2 := acc ++ [c]
    if c ≤ epsilon then (acc2, false)
    else if converged acc2 tol then (acc2, true)
    else cpdGo costSeq epsilon tol fuel acc2

/-- Modelled from the spec: a CPD.decompose run starts from an empty cost
history (initialisation resets cost) and iterates at most max_iter
times; the returned pair is the final cost history and the converged
flag. -/
def decomposeRun (costSeq : Nat → ℚ) (epsilon tol : ℚ) (max_iter : Nat) :
    List ℚ × Bool :=
  cpdGo costSeq epsilon tol max_iter []

/-- Transpose of a matrix. -/
def Mat.transpose (M : Mat) : Mat :=
  { rows := M.cols
    cols := M.rows
    data := (List.range (M.cols * M.rows)).map fun idx =>
      M.entry (idx % M.rows) (idx / M.rows) }

/-- The n-by-n identity matrix. -/
def idMat (n : Nat) : Mat :=
  { rows := n
    cols := n
    data := (List.range (n * n)).map fun idx => if idx / n = idx % n then 1 else 0 }

/-- A matrix has orthonormal columns when its Gram matrix FᵗF is the
identity of size cols. -/
def orthonormalCols (M : Mat) : Prop :=
  matMul M.transpose M = idMat M.cols

/-- Modelled from the spec: CPD._init_fmat with init set to svd, of the
missing cpd.py — with the granularity of the fallback pinned by the
repository's own test (test_cpd.py, test_init_fmat): with rank equal to
min(shape) + 1 the test requires EVERY factor matrix to be
non-orthonormal, so the fallback is global, not per mode.  When the
requested rank exceeds the dimension of any mode, the engine surfaces
one runtime warning and every mode receives a random matrix (oracle
randF); only when the rank is feasible for every mode does each mode n
receive the leading rank left singular vectors of its mode-n unfolding
(oracle svdF, numerical SVD being outside this embedding).  The result
is the factor matrix list paired with whether a warning was surfaced. -/
def initFmatSvd (shape : List Nat) (rank : Nat) (svdF randF : Nat → Mat) :
    List Mat × Bool :=
  if shape.any fun d => d < rank then
    ((List.range shape.length).map randF, true)
  else
    ((List.range shape.length).map svdF, false)

/-- A heap of cost cells, giving the list-valued cost field of
configuration objects an identity so that sharing is observable. -/
abbrev Heap := List (List ℚ)

/-- Modelled from the spec: the configuration object of BaseCPD of the
missing cpd.py.  Scalar configuration fields are held by value; the
mutable cost history is held by reference into a Heap. -/
structure CPDConf where
  init : String
  max_iter : Nat
  epsilon : ℚ
  tol : ℚ
  mode_description : String
  verbose : Bool
  costRef : Nat
  deriving DecidableEq, Repr

/-- Read the cost history of a configuration from the heap. -/
def readCost (h : Heap) (c : CPDConf) : List ℚ :=
  h.getD c.costRef []

/-- Overwrite the cost history of a configuration in the heap. -/
def writeCost (h : Heap) (c : CPDConf) (v : List ℚ) : Heap :=
  h.set c.costRef v

/-- Modelled from the spec: BaseCPD.copy of the missing cpd.py — an
independent clone whose scalar configuration fields equal those of the
original and whose cost starts as a fresh empty sequence (a newly
allocated cell, so no mutable state is shared with the original). -/
def copyCPD (h : Heap) (c : CPDConf) : Heap × CPDConf :=
  (h ++ [[]], { c with costRef := h.length })

/-! ## Theorems -/

lemma ratAbs_eq_abs (x : ℚ) : ratAbs x = |x| := by
  rw [ratAbs]
  split
  · rw [abs_of_neg]
    assumption
  · rw [abs_of_nonneg]
    linarith

/-- C10: unlike khatri_rao, hadamard and kronecker perform no
minimum-count validation: on a single-element list both succeed and
return that element unchanged, the left-fold reduction over one element
being that element itself. -/
theorem hadamard_kronecker_singleton (m : Mat) :
    hadamard [m] none false = Except.ok m ∧ kronecker [m] none false = Except.ok m :=
  ⟨rfl, rfl⟩

/-- C2: the converged property is false when the cost history has fewer
than two entries; otherwise it is true iff the absolute difference
between the last two entries is below tol; and entries earlier than the
last two never affect the result. -/
theorem converged_spec (cost : List ℚ) (tol : ℚ) :
    (cost.length < 2 → converged cost tol = false) ∧
    (2 ≤ cost.length →
      (converged cost tol = true ↔
        |cost.getD (cost.length - 1) 0 - cost.getD (cost.length - 2) 0| < tol)) ∧
    (∀ (l : List ℚ) (x y : ℚ), converged (l ++ [x, y]) tol = converged [x, y] tol) := by
  refine ⟨fun h => by simp [converged, h], fun h => ?_, fun l x y => ?_⟩
  · rw [converged, if_neg (by omega)]
    simp [ratAbs_eq_abs]
  · have hy : (l ++ [x, y]).getD ((l ++ [x, y]).length - 1) 0 = y := by
      rw [List.length_append]
      show (l ++ [x, y]).getD (l.length + 1) 0 = y
      rw [List.getD_append_right l [x, y] 0 (l.length + 1) (by omega)]
      simp
    have hx : (l ++ [x, y]).getD ((l ++ [x, y]).length - 2) 0 = x := by
      rw [List.length_append]
      show (l ++ [x, y]).getD l.length 0 = x
      rw [List.getD_append_right l [x, y] 0 l.length (by omega)]
      simp
    rw [converged, converged,
      if_neg (by simp only [List.length_append, List.length_cons, List.length_nil]; omega),
      if_neg (by simp), hy, hx]
    rfl

/-- Witness for C2 at the cost histories exercised by test_converged. -/
theorem converged_spec_witness :
    converged [(1 : ℚ)] 1 = false ∧
    (converged [(1 : ℚ)/1000, 1/10000] (1/100) = true ↔
      |(1 : ℚ)/10000 - 1/1000| < 1/100) :=
  ⟨(converged_spec [(1 : ℚ)] 1).1 (by decide),
   (converged_spec [(1 : ℚ)/1000, 1/10000] (1/100)).2.1 (by decide)⟩

/-- C9: copy yields a clone distinct from the original, with every scalar
configuration field equal, an empty cost history in a freshly allocated
cell, and no shared mutable state: overwriting the cost of either object
after the copy never changes what the other one reads. -/
theorem copyCPD_spec (h : Heap) (c : CPDConf) (hv : c.costRef < h.length) :
    (copyCPD h c).2 ≠ c ∧
    (copyCPD h c).2.init = c.init ∧
    (copyCPD h c).2.max_iter = c.max_iter ∧
    (copyCPD h c).2.epsilon = c.epsilon ∧
    (copyCPD h c).2.tol = c.tol ∧
    (copyCPD h c).2.mode_description = c.mode_description ∧
    (copyCPD h c).2.verbose = c.verbose ∧
    readCost (copyCPD h c).1 (copyCPD h c).2 = [] ∧
    readCost (copyCPD h c).1 c = readCost h c ∧
    (∀ v, readCost (writeCost (copyCPD h c).1 c v) (copyCPD h c).2 =
      readCost (copyCPD h c).1 (copyCPD h c).2) ∧
    (∀ v, readCost (writeCost (copyCPD h c).1 (copyCPD h c).2 v) c =
      readCost (copyCPD h c).1 c) := by
  have hne : c.costRef ≠ h.length := by omega
  refine ⟨?_, rfl, rfl, rfl, rfl, rfl, rfl, ?_, ?_, ?_, ?_⟩
  · intro heq
    have hcr := congrArg CPDConf.costRef heq
    simp [copyCPD] at hcr
    omega
  · show (h ++ [[]]).getD h.length [] = []
    rw [List.getD_append_right h [[]] [] h.length le_rfl]
    simp
  · show (h ++ [[]]).getD c.costRef [] = h.getD c.costRef []
    exact List.getD_append h [[]] [] c.costRef hv
  · intro v
    show ((h ++ [[]]).set c.costRef v).getD h.length [] = (h ++ [[]]).getD h.length []
    simp [List.getD_eq_getD_get?, List.get?_eq_getElem?, List.getElem?_set, hne]
  · intro v
    show ((h ++ [[]]).set h.length v).getD c.costRef [] = (h ++ [[]]).getD c.costRef []
    simp only [List.getD_eq_getD_get?, List.get?_eq_getElem?, List.getElem?_set,
      List.length_append]
    rw [if_neg (Ne.symm hne)]

/-- Witness for C9: the clone of a concrete configuration reads an empty
cost history. -/
theorem copyCPD_spec_witness :
    (copyCPD [[1, 2]] (CPDConf.mk "svd" 50 (1/100) (1/10000) "md" false 0)).2 ≠
      CPDConf.mk "svd" 50 (1/100) (1/10000) "md" false 0 :=
  (copyCPD_spec [[1, 2]] (CPDConf.mk "svd" 50 (1/100) (1/10000) "md" false 0)
    (by decide)).1

/-- C5 counterexample: for khatri_rao on a two-matrix list, passing
skip_matrix 0 is NOT the same as calling on the list with index 0
removed — the former passes the length check (made before skipping) and
succeeds, while the latter is rejected. -/
theorem khatri_rao_skip_neq_removed :
    khatri_rao [Mat.mk 1 1 [1], Mat.mk 1 1 [2]] (some 0) false ≠
      khatri_rao ([Mat.mk 1 1 [1], Mat.mk 1 1 [2]].eraseIdx 0) none false := by
  intro hcontra
  have hL : khatri_rao [Mat.mk 1 1 [1], Mat.mk 1 1 [2]] (some 0) false =
      Except.ok (Mat.mk 1 1 [2]) := rfl
  have hR : khatri_rao ([Mat.mk 1 1 [1], Mat.mk 1 1 [2]].eraseIdx 0) none false =
      Except.error "khatri_roa product requires a list of at least 2 matrices" := rfl
  rw [hL, hR] at hcontra
  exact Except.noConfusion hcontra

/-- C5 (amended): for hadamard and kronecker, skip_matrix k behaves
exactly as removal of index k, reverse true behaves exactly as calling on
the reversed list, and the two combine as skip-then-reverse.  For
khatri_rao the same three equivalences hold whenever at least 3 matrices
are given, so that removal does not change the outcome of the length
check, which the implementation makes on the list as given before the
skip filter; on a two-matrix list with a skip index the call succeeds
while the call on the reduced list is rejected. -/
theorem skip_reverse_equivalences :
    (∀ (ms : List Mat) (k : Nat) (rev : Bool),
       hadamard ms (some k) rev = hadamard (ms.eraseIdx k) none rev) ∧
    (∀ ms : List Mat, hadamard ms none true = hadamard ms.reverse none false) ∧
    (∀ (ms : List Mat) (k : Nat),
       hadamard ms (some k) true = hadamard ((ms.eraseIdx k).reverse) none false) ∧
    (∀ (ms : List Mat) (k : Nat) (rev : Bool),
       kronecker ms (some k) rev = kronecker (ms.eraseIdx k) none rev) ∧
    (∀ ms : List Mat, kronecker ms none true = kronecker ms.reverse none false) ∧
    (∀ (ms : List Mat) (k : Nat),
       kronecker ms (some k) true = kronecker ((ms.eraseIdx k).reverse) none false) ∧
    (∀ (ms : List Mat) (k : Nat) (rev : Bool), 3 ≤ ms.length →
       khatri_rao ms (some k) rev = khatri_rao (ms.eraseIdx k) none rev) ∧
    (∀ ms : List Mat, khatri_rao ms none true = khatri_rao ms.reverse none false) ∧
    (∀ (ms : List Mat) (k : Nat), 3 ≤ ms.length →
       khatri_rao ms (some k) true = khatri_rao ((ms.eraseIdx k).reverse) none false) := by
  have herase : ∀ (ms : List Mat) (k : Nat), 3 ≤ ms.length →
      ¬ (ms.eraseIdx k).length < 2 := by
    intro ms k h3
    rw [List.length_eraseIdx]
    split <;> omega
  refine ⟨fun ms k rev => rfl, fun ms => rfl, fun ms k => rfl,
    fun ms k rev => rfl, fun ms => rfl, fun ms k => rfl, ?_, ?_, ?_⟩
  · intro ms k rev h3
    rw [khatri_rao, khatri_rao, if_neg (by omega), if_neg (herase ms k h3)]
    rfl
  · intro ms
    by_cases h : ms.length < 2
    · rw [khatri_rao, khatri_rao, if_pos h, if_pos (by simpa using h)]
    · rw [khatri_rao, khatri_rao, if_neg h, if_neg (by simpa using h)]
      rfl
  · intro ms k h3
    rw [khatri_rao, khatri_rao, if_neg (by omega),
      if_neg (by rw [List.length_reverse]; exact herase ms k h3)]
    rfl

/-- Witness for C5 (amended) at three concrete one-by-one matrices. -/
theorem skip_reverse_equivalences_witness :
    khatri_rao [Mat.mk 1 1 [1], Mat.mk 1 1 [2], Mat.mk 1 1 [3]] (some 1) false =
      khatri_rao ([Mat.mk 1 1 [1], Mat.mk 1 1 [2], Mat.mk 1 1 [3]].eraseIdx 1)
        none false :=
  skip_reverse_equivalences.2.2.2.2.2.2.1
    [Mat.mk 1 1 [1], Mat.mk 1 1 [2], Mat.mk 1 1 [3]] 1 false (by decide)

/-- C4 counterexample: calling khatri_rao on a list of 2 matrices with
skip_matrix set (1 matrix remaining) does NOT raise a value error — it
succeeds and returns the remaining matrix, because the length check is
made on the list as given, before the skip filter. -/
theorem khatri_rao_two_with_skip_succeeds :
    khatri_rao [Mat.mk 1 1 [2], Mat.mk 1 1 [3]] (some 0) false =
      Except.ok (Mat.mk 1 1 [3]) :=
  rfl

/-- C4 (amended): khatri_rao fails with a value error exactly when the
list as given (before the skip filter) has fewer than 2 matrices, or when
the matrices remaining after the skip filter do not all share the column
count of the first remaining one; a list of 3 matrices with a skip index
set succeeds when the 2 remaining agree in columns, and a list of 2 with
a skip index set succeeds, returning the single remaining matrix. -/
theorem khatri_rao_ok_iff (ms : List Mat) (skip : Option Nat) (rev : Bool) :
    (∃ M, khatri_rao ms skip rev = Except.ok M) ↔
      2 ≤ ms.length ∧ colsOk (applySkipRev ms skip rev) = true := by
  by_cases h2 : ms.length < 2
  · rw [khatri_rao, if_pos h2]
    simp
    omega
  · have hlen : 1 ≤ (applySkipRev ms skip rev).length := by
      have hs : ∀ ms1 : List Mat, 1 ≤ ms1.length →
          1 ≤ (if rev then ms1.reverse else ms1).length := by
        intro ms1 h1
        cases rev <;> simpa using h1
      rw [applySkipRev.eq_def]
      cases skip with
      | none => exact hs ms (by omega)
      | some k =>
        refine hs (ms.eraseIdx k) ?_
        rw [List.length_eraseIdx]
        split <;> omega
    rcases hcons : applySkipRev ms skip rev with _ | ⟨m0, rest⟩
    · rw [hcons] at hlen
      simp at hlen
    · have hk : khatri_rao ms skip rev =
          (if rest.all (fun m => m.cols == m0.cols) then
            Except.ok (Mat.mk (rest.foldl (fun r m => r * m.rows) m0.rows) m0.cols
              ((List.range ((rest.foldl (fun r m => r * m.rows) m0.rows) * m0.cols)).map
                fun idx => (khatriRaoCol (m0 :: rest) (idx % m0.cols)).getD (idx / m0.cols) 0))
          else Except.error "All matrices must have the same number of columns.") := by
        rw [khatri_rao, if_neg h2, hcons]
      rw [hk]
      simp only [hcons, colsOk]
      by_cases hc : rest.all (fun m => m.cols == m0.cols)
      · rw [if_pos hc]
        simp [hc]
        omega
      · rw [if_neg hc]
        simp [hc]

/-- C7: mode_n_product is fold(matrix · unfold(tensor, mode), mode,
new_shape) with new_shape the tensor shape with entry mode replaced by
the row count of the matrix, so the result shape differs from the input
shape only at position mode, which becomes matrix.rows. -/
theorem mode_n_product_spec (T : NDArray) (M : Mat) (mode : Nat)
    (h1 : mode < T.shape.length) (h2 : M.cols = T.shape.getD mode 0) :
    mode_n_product T M mode =
      fold (matMul M (unfold T mode)) mode (T.shape.set mode M.rows) ∧
    (mode_n_product T M mode).shape = T.shape.set mode M.rows :=
  ⟨rfl, rfl⟩

/-- Witness for C7: contracting a 2-by-3 tensor with a 1-by-3 matrix
along mode 1. -/
theorem mode_n_product_spec_witness :
    mode_n_product (NDArray.mk [2, 3] [0, 1, 2, 3, 4, 5]) (Mat.mk 1 3 [1, 1, 1]) 1 =
      fold (matMul (Mat.mk 1 3 [1, 1, 1])
          (unfold (NDArray.mk [2, 3] [0, 1, 2, 3, 4, 5]) 1)) 1
        ([2, 3].set 1 1) ∧
    (mode_n_product (NDArray.mk [2, 3] [0, 1, 2, 3, 4, 5]) (Mat.mk 1 3 [1, 1, 1]) 1).shape =
      [2, 3].set 1 1 :=
  mode_n_product_spec (NDArray.mk [2, 3] [0, 1, 2, 3, 4, 5]) (Mat.mk 1 3 [1, 1, 1]) 1
    (by decide) (by decide)

lemma length_kronVec (u v : List ℚ) : (kronVec u v).length = u.length * v.length := by
  induction u with
  | nil => simp [kronVec]
  | cons x u ih =>
    rw [kronVec, List.flatMap_cons]
    simp only [List.length_append, List.length_map, List.length_cons]
    rw [show u.flatMap (fun x => v.map fun y => x * y) = kronVec u v from rfl, ih]
    ring

lemma length_col (M : Mat) (j : Nat) : (M.col j).length = M.rows := by
  simp [Mat.col]

lemma khatriRaoCol_foldl_length (i : Nat) (rest : List Mat) :
    ∀ temp : List ℚ,
      (rest.foldl (fun t m => kronVec t (m.col i)) temp).length =
        rest.foldl (fun r m => r * m.rows) temp.length := by
  induction rest with
  | nil => intro temp; rfl
  | cons m rest ih =>
    intro temp
    simp only [List.foldl_cons]
    rw [ih, length_kronVec, length_col]

lemma khatriRaoCol_length (m0 : Mat) (rest : List Mat) (i : Nat) :
    (khatriRaoCol (m0 :: rest) i).length =
      rest.foldl (fun r m => r * m.rows) m0.rows := by
  rw [khatriRaoCol, khatriRaoCol_foldl_length, length_col]

lemma foldl_mul_rows (rest : List Mat) :
    ∀ a : Nat, rest.foldl (fun r m => r * m.rows) a = a * (rest.map Mat.rows).prod := by
  induction rest with
  | nil => intro a; simp
  | cons m rest ih =>
    intro a
    simp only [List.foldl_cons, List.map_cons, List.prod_cons]
    rw [ih, Nat.mul_assoc]

lemma khatriRaoCol_eq_spec (ms : List Mat) (i : Nat) :
    khatriRaoCol ms i = specKhatriRaoColumn ms i := by
  cases ms with
  | nil => rfl
  | cons m0 rest =>
    rw [khatriRaoCol, specKhatriRaoColumn, List.foldl_map]

lemma getD_rangeMap {α : Type} (n idx : Nat) (f : Nat → α) (d : α) (h : idx < n) :
    ((List.range n).map f).getD idx d = f idx := by
  rw [List.getD_eq_getElem _ _ (by simpa using h)]
  simp

lemma rangeMap_getD_self (l : List ℚ) :
    (List.range l.length).map (fun k => l.getD k 0) = l := by
  apply List.ext_getElem
  · simp
  · intro n h1 h2
    simp [List.getD_eq_getElem _ _ h2, List.getElem?_eq_getElem h2]

/-- C6: on at least two matrices that all share column count R, khatri_rao
succeeds with a matrix of exactly R columns, with row count the product
of all input row counts, whose i-th column is the Kronecker product of
the i-th columns of the inputs. -/
theorem khatri_rao_shape (ms : List Mat) (R : Nat) (h2 : 2 ≤ ms.length)
    (hcols : ∀ m ∈ ms, m.cols = R) :
    ∃ M, khatri_rao ms none false = Except.ok M ∧ M.cols = R ∧
      M.rows = (ms.map Mat.rows).prod ∧
      ∀ i, i < R → M.col i = specKhatriRaoColumn ms i := by
  rcases ms with _ | ⟨m0, rest⟩
  · simp at h2
  · simp only [List.length_cons] at h2
    have h0 : m0.cols = R := hcols m0 (by simp)
    have hall : rest.all (fun m => m.cols == m0.cols) = true := by
      rw [List.all_eq_true]
      intro m hm
      have := hcols m (by simp [hm])
      simp [this, h0]
    have hk : khatri_rao (m0 :: rest) none false =
        Except.ok (Mat.mk (rest.foldl (fun r m => r * m.rows) m0.rows) m0.cols
          ((List.range ((rest.foldl (fun r m => r * m.rows) m0.rows) * m0.cols)).map
            fun idx =>
              (khatriRaoCol (m0 :: rest) (idx % m0.cols)).getD (idx / m0.cols) 0)) := by
      rw [khatri_rao, if_neg (by simp only [List.length_cons]; omega)]
      show (if rest.all (fun m => m.cols == m0.cols) = true then _ else _) = _
      rw [if_pos hall]
    set nR := rest.foldl (fun r m => r * m.rows) m0.rows with hnR
    refine ⟨_, hk, h0, ?_, ?_⟩
    · show nR = ((m0 :: rest).map Mat.rows).prod
      rw [hnR, foldl_mul_rows, List.map_cons, List.prod_cons]
    · intro i hi
      have hiC : i < m0.cols := h0 ▸ hi
      have hC : 0 < m0.cols := Nat.lt_of_le_of_lt (Nat.zero_le i) hiC
      have hlenKR : (khatriRaoCol (m0 :: rest) i).length = nR := khatriRaoCol_length m0 rest i
      rw [← khatriRaoCol_eq_spec]
      simp only [Mat.col]
      have hmapeq : ∀ k ∈ List.range nR,
          Mat.entry (Mat.mk nR m0.cols ((List.range (nR * m0.cols)).map fun idx =>
            (khatriRaoCol (m0 :: rest) (idx % m0.cols)).getD (idx / m0.cols) 0)) k i =
          (khatriRaoCol (m0 :: rest) i).getD k 0 := by
        intro k hkmem
        have hkR : k < nR := by simpa using hkmem
        have hidx : k * m0.cols + i < nR * m0.cols := by
          calc k * m0.cols + i < k * m0.cols + m0.cols := by omega
          _ = (k + 1) * m0.cols := by ring
          _ ≤ nR * m0.cols := Nat.mul_le_mul_right m0.cols hkR
        show (((List.range (nR * m0.cols)).map fun idx =>
          (khatriRaoCol (m0 :: rest) (idx % m0.cols)).getD (idx / m0.cols) 0)).getD
            (k * m0.cols + i) 0 = _
        rw [getD_rangeMap _ _ _ _ hidx, Nat.mul_comm k m0.cols, Nat.mul_add_mod,
          Nat.mod_eq_of_lt hiC, Nat.mul_add_div hC, Nat.div_eq_of_lt hiC, Nat.add_zero]
      rw [List.map_congr_left hmapeq, ← hlenKR, rangeMap_getD_self]

/-- Witness for C6 at two concrete 2-by-2 matrices. -/
theorem khatri_rao_shape_witness :
    ∃ M, khatri_rao [Mat.mk 2 2 [1, 2, 3, 4], Mat.mk 2 2 [5, 6, 7, 8]] none false =
        Except.ok M ∧ M.cols = 2 ∧
      M.rows = ([Mat.mk 2 2 [1, 2, 3, 4], Mat.mk 2 2 [5, 6, 7, 8]].map Mat.rows).prod ∧
      ∀ i, i < 2 → M.col i =
        specKhatriRaoColumn [Mat.mk 2 2 [1, 2, 3, 4], Mat.mk 2 2 [5, 6, 7, 8]] i :=
  khatri_rao_shape [Mat.mk 2 2 [1, 2, 3, 4], Mat.mk 2 2 [5, 6, 7, 8]] 2
    (by decide) (by decide)

lemma prod_pos_of_forall2 {idx shape : List Nat}
    (h : List.Forall₂ (· < ·) idx shape) : 0 < shape.prod := by
  induction h with
  | nil => simp
  | @cons a b t1 t2 hab ht ih =>
    rw [List.prod_cons]
    exact Nat.mul_pos (Nat.lt_of_le_of_lt (Nat.zero_le a) hab) ih

lemma encodeIdx_lt {idx shape : List Nat}
    (h : List.Forall₂ (· < ·) idx shape) : encodeIdx shape idx < shape.prod := by
  induction h with
  | nil => simp [encodeIdx]
  | @cons a b t1 t2 hab ht ih =>
    rw [encodeIdx, List.prod_cons]
    calc a * t2.prod + encodeIdx t2 t1 < a * t2.prod + t2.prod := by omega
    _ = (a + 1) * t2.prod := by ring
    _ ≤ b * t2.prod := Nat.mul_le_mul_right t2.prod hab

lemma encode_decode (shape : List Nat) :
    ∀ n, n < shape.prod → encodeIdx shape (decodeIdx shape n) = n := by
  induction shape with
  | nil =>
    intro n h
    rw [List.prod_nil] at h
    interval_cases n
    rfl
  | cons d ds ih =>
    intro n h
    have hP : 0 < ds.prod := by
      rcases Nat.eq_zero_or_pos ds.prod with h0 | h0
      · rw [List.prod_cons, h0, Nat.mul_zero] at h
        omega
      · exact h0
    rw [decodeIdx, encodeIdx, ih _ (Nat.mod_lt _ hP), Nat.mul_comm, Nat.div_add_mod]

lemma decode_length (shape : List Nat) :
    ∀ n, (decodeIdx shape n).length = shape.length := by
  induction shape with
  | nil => intro n; rfl
  | cons d ds ih =>
    intro n
    rw [decodeIdx, List.length_cons, List.length_cons, ih]

lemma decode_valid (shape : List Nat) :
    ∀ n, n < shape.prod → List.Forall₂ (· < ·) (decodeIdx shape n) shape := by
  induction shape with
  | nil => intro n h; exact List.Forall₂.nil
  | cons d ds ih =>
    intro n h
    rw [List.prod_cons] at h
    have hP : 0 < ds.prod := by
      rcases Nat.eq_zero_or_pos ds.prod with h0 | h0
      · rw [h0, Nat.mul_zero] at h
        omega
      · exact h0
    refine List.Forall₂.cons ?_ (ih _ (Nat.mod_lt _ hP))
    exact Nat.div_lt_of_lt_mul (by rwa [Nat.mul_comm d ds.prod] at h)

lemma decode_encode {idx shape : List Nat}
    (h : List.Forall₂ (· < ·) idx shape) :
    decodeIdx shape (encodeIdx shape idx) = idx := by
  induction h with
  | nil => rfl
  | @cons a b t1 t2 hab ht ih =>
    have hP : 0 < t2.prod := prod_pos_of_forall2 ht
    have he : encodeIdx t2 t1 < t2.prod := encodeIdx_lt ht
    rw [encodeIdx, decodeIdx, Nat.mul_comm a t2.prod, Nat.mul_add_div hP,
      Nat.div_eq_of_lt he, Nat.add_zero, Nat.mul_add_mod, Nat.mod_eq_of_lt he, ih]

lemma forall2_getD {idx shape : List Nat}
    (h : List.Forall₂ (· < ·) idx shape) :
    ∀ k, k < idx.length → idx.getD k 0 < shape.getD k 0 := by
  induction h with
  | nil => intro k hk; simp at hk
  | @cons a b t1 t2 hab ht ih =>
    intro k hk
    cases k with
    | zero => simpa using hab
    | succ k =>
      rw [List.getD_cons_succ, List.getD_cons_succ]
      exact ih k (by simpa using hk)

lemma forall2_eraseIdx {idx shape : List Nat}
    (h : List.Forall₂ (· < ·) idx shape) :
    ∀ m, List.Forall₂ (· < ·) (idx.eraseIdx m) (shape.eraseIdx m) := by
  induction h with
  | nil => intro m; exact List.Forall₂.nil
  | @cons a b t1 t2 hab ht ih =>
    intro m
    cases m with
    | zero => simpa using ht
    | succ m =>
      rw [List.eraseIdx_cons_succ, List.eraseIdx_cons_succ]
      exact List.Forall₂.cons hab (ih m)

lemma eraseIdx_insertIdx_getD :
    ∀ (l : List Nat) (m : Nat), m < l.length →
      (l.eraseIdx m).insertIdx m (l.getD m 0) = l := by
  intro l
  induction l with
  | nil => intro m h; simp at h
  | cons a l ih =>
    intro m h
    cases m with
    | zero => rfl
    | succ m =>
      rw [List.eraseIdx_cons_succ, List.getD_cons_succ, List.insertIdx_succ_cons,
        ih m (by simpa using h)]

/-- C3: fold(unfold(T, m), m, T.shape) reproduces T exactly for every
well-formed tensor and every valid mode, and unfold has shape[m] rows and
the product of the remaining dimensions as its column count. -/
theorem fold_unfold (T : NDArray) (mode : Nat)
    (hmode : mode < T.shape.length) (hwf : T.data.length = T.shape.prod) :
    fold (unfold T mode) mode T.shape = T ∧
    (unfold T mode).rows = T.shape.getD mode 0 ∧
    (unfold T mode).cols = (T.shape.eraseIdx mode).prod := by
  refine ⟨NDArray.ext rfl ?_, rfl, rfl⟩
  simp only [fold, unfold]
  apply List.ext_getElem
  · simpa using hwf.symm
  · intro n h1 h2
    have hn : n < T.shape.prod := by simpa using h1
    have hvalid : List.Forall₂ (· < ·) (decodeIdx T.shape n) T.shape :=
      decode_valid T.shape n hn
    rw [List.getElem_map, List.getElem_range]
    have hmlen : mode < (decodeIdx T.shape n).length := by
      rw [decode_length]
      exact hmode
    have hmoved : List.Forall₂ (· < ·)
        ((decodeIdx T.shape n).getD mode 0 :: (decodeIdx T.shape n).eraseIdx mode)
        (T.shape.getD mode 0 :: T.shape.eraseIdx mode) :=
      List.Forall₂.cons (forall2_getD hvalid mode hmlen) (forall2_eraseIdx hvalid mode)
    have hk : encodeIdx (T.shape.getD mode 0 :: T.shape.eraseIdx mode)
        ((decodeIdx T.shape n).getD mode 0 :: (decodeIdx T.shape n).eraseIdx mode) <
        (T.shape.getD mode 0 :: T.shape.eraseIdx mode).prod := encodeIdx_lt hmoved
    rw [getD_rangeMap _ _ _ _ hk, decode_encode hmoved]
    simp only [List.drop_one, List.tail_cons, List.headD_cons]
    rw [eraseIdx_insertIdx_getD _ mode hmlen, encode_decode T.shape n hn,
      List.getD_eq_getElem _ _ (by rw [hwf]; exact hn)]

/-- Witness for C3: round trip of a concrete 2-by-3 tensor along mode 1. -/
theorem fold_unfold_witness :
    fold (unfold (NDArray.mk [2, 3] [0, 1, 2, 3, 4, 5]) 1) 1 [2, 3] =
      NDArray.mk [2, 3] [0, 1, 2, 3, 4, 5] ∧
    (unfold (NDArray.mk [2, 3] [0, 1, 2, 3, 4, 5]) 1).rows = [2, 3].getD 1 0 ∧
    (unfold (NDArray.mk [2, 3] [0, 1, 2, 3, 4, 5]) 1).cols = ([2, 3].eraseIdx 1).prod :=
  fold_unfold (NDArray.mk [2, 3] [0, 1, 2, 3, 4, 5]) 1 (by decide) (by decide)

lemma take_rangeMap (f : Nat → ℚ) (N k : Nat) (h : k ≤ N) :
    ((List.range N).map f).take k = (List.range k).map f := by
  rw [← List.map_take, List.take_range]
  have hm : k ⊓ N = k := by omega
  rw [hm]

lemma lastCost_append (l : List ℚ) (c : ℚ) : lastCost (l ++ [c]) = c := by
  rw [lastCost, List.length_append]
  show (l ++ [c]).getD (l.length + 1 - 1) 0 = c
  rw [List.getD_append_right l [c] 0 (l.length + 1 - 1) (by omega)]
  simp

lemma cpdGo_spec (costSeq : Nat → ℚ) (epsilon tol : ℚ) :
    ∀ (fuel : Nat) (acc cost : List ℚ) (flag : Bool),
      1 ≤ fuel + acc.length →
      acc = (List.range acc.length).map costSeq →
      (∀ k, 1 ≤ k → k ≤ acc.length →
        ¬ lastCost (acc.take k) ≤ epsilon ∧ converged (acc.take k) tol = false) →
      cpdGo costSeq epsilon tol fuel acc = (cost, flag) →
      cost = (List.range cost.length).map costSeq ∧
      acc.length ≤ cost.length ∧ 1 ≤ cost.length ∧ cost.length ≤ acc.length + fuel ∧
      (∀ k, 1 ≤ k → k < cost.length →
        ¬ lastCost (cost.take k) ≤ epsilon ∧ converged (cost.take k) tol = false) ∧
      ((lastCost cost ≤ epsilon ∧ flag = false) ∨
       (¬ lastCost cost ≤ epsilon ∧ converged cost tol = true ∧ flag = true) ∨
       (¬ lastCost cost ≤ epsilon ∧ converged cost tol = false ∧
         cost.length = acc.length + fuel ∧ flag = false)) := by
  intro fuel
  induction fuel with
  | zero =>
    intro acc cost flag hpos hacc hinv hrun
    rw [cpdGo] at hrun
    injection hrun with hcost hflag
    subst hcost
    have hlen1 : 1 ≤ acc.length := by omega
    have hstop := hinv acc.length hlen1 le_rfl
    rw [List.take_length] at hstop
    exact ⟨hacc, le_rfl, hlen1, by omega, fun k hk1 hk2 => hinv k hk1 (by omega),
      Or.inr (Or.inr ⟨hstop.1, hstop.2, by omega, hflag.symm⟩)⟩
  | succ f ih =>
    intro acc cost flag hpos hacc hinv hrun
    rw [cpdGo] at hrun
    set c := costSeq acc.length with hc
    set acc2 := acc ++ [c] with hacc2def
    have hlen2 : acc2.length = acc.length + 1 := by
      rw [hacc2def, List.length_append, List.length_cons, List.length_nil]
    have hacc2 : acc2 = (List.range acc2.length).map costSeq := by
      rw [hlen2, List.range_succ, List.map_append, ← hacc, hacc2def]
      rfl
    have hlast2 : lastCost acc2 = c := lastCost_append acc c
    have hpre : ∀ k, 1 ≤ k → k ≤ acc.length →
        ¬ lastCost (acc2.take k) ≤ epsilon ∧ converged (acc2.take k) tol = false := by
      intro k hk1 hk2
      rw [hacc2def, List.take_append_of_le_length hk2]
      exact hinv k hk1 hk2
    by_cases hstop1 : c ≤ epsilon
    · rw [if_pos hstop1] at hrun
      injection hrun with hcost hflag
      subst hcost
      refine ⟨hacc2, by omega, by omega, by omega, ?_, Or.inl ⟨hlast2 ▸ hstop1, hflag.symm⟩⟩
      intro k hk1 hk2
      exact hpre k hk1 (by omega)
    · rw [if_neg hstop1] at hrun
      by_cases hstop2 : converged acc2 tol = true
      · rw [if_pos hstop2] at hrun
        injection hrun with hcost hflag
        subst hcost
        refine ⟨hacc2, by omega, by omega, by omega, ?_,
          Or.inr (Or.inl ⟨hlast2 ▸ hstop1, hstop2, hflag.symm⟩)⟩
        intro k hk1 hk2
        exact hpre k hk1 (by omega)
      · rw [if_neg hstop2] at hrun
        rw [Bool.not_eq_true] at hstop2
        have hinv2 : ∀ k, 1 ≤ k → k ≤ acc2.length →
            ¬ lastCost (acc2.take k) ≤ epsilon ∧ converged (acc2.take k) tol = false := by
          intro k hk1 hk2
          rcases Nat.lt_or_ge k acc2.length with hlt | hge
          · exact hpre k hk1 (by omega)
          · have hke : k = acc2.length := by omega
            rw [hke, List.take_length]
            exact ⟨hlast2 ▸ hstop1, hstop2⟩
        obtain ⟨g1, g2, g3, g4, g5, g6⟩ :=
          ih acc2 cost flag (by omega) hacc2 hinv2 hrun
        refine ⟨g1, by omega, g3, by omega, g5, ?_⟩
        rcases g6 with h | h | h
        · exact Or.inl h
        · exact Or.inr (Or.inl h)
        · exact Or.inr (Or.inr ⟨h.1, h.2.1, by omega, h.2.2.2⟩)

/-- C1: a decompose run stops under exactly one of three conditions,
checked in priority order after each appended cost value: last cost at
most epsilon (converged false), the two-point tol criterion (converged
true), or the iteration cap with exactly max_iter recorded cost values
(converged false); no earlier prefix of the history triggers a stop, the
recorded values are the per-iteration costs, and only the convergence
stop ever sets the flag. -/
theorem decompose_termination (costSeq : Nat → ℚ) (epsilon tol : ℚ)
    (max_iter : Nat) (cost : List ℚ) (flag : Bool) (hpos : 1 ≤ max_iter)
    (hrun : decomposeRun costSeq epsilon tol max_iter = (cost, flag)) :
    cost = (List.range cost.length).map costSeq ∧
    1 ≤ cost.length ∧ cost.length ≤ max_iter ∧
    (∀ k, 1 ≤ k → k < cost.length →
      ¬ lastCost (cost.take k) ≤ epsilon ∧ converged (cost.take k) tol = false) ∧
    ((lastCost cost ≤ epsilon ∧ flag = false) ∨
     (¬ lastCost cost ≤ epsilon ∧ converged cost tol = true ∧ flag = true) ∨
     (¬ lastCost cost ≤ epsilon ∧ converged cost tol = false ∧
       cost.length = max_iter ∧ flag = false)) := by
  obtain ⟨g1, g2, g3, g4, g5, g6⟩ :=
    cpdGo_spec costSeq epsilon tol max_iter [] cost flag (by simpa using hpos) rfl
      (by intro k hk1 hk2; simp at hk2; omega) hrun
  refine ⟨g1, g3, by simpa using g4, g5, ?_⟩
  rcases g6 with h | h | h
  · exact Or.inl h
  · exact Or.inr (Or.inl h)
  · exact Or.inr (Or.inr ⟨h.1, h.2.1, by simpa using h.2.2.1, h.2.2.2⟩)

/-- Witness for C1: the run with cost sequence 3, 2, 1, epsilon 0, tol 1
and max_iter 2 records exactly two cost values. -/
theorem decompose_termination_witness :
    1 ≤ ([(3 : ℚ), 2]).length ∧ ([(3 : ℚ), 2]).length ≤ 2 :=
  ⟨(decompose_termination (fun n => [(3 : ℚ), 2, 1].getD n 0) 0 1 2
      [(3 : ℚ), 2] false (by decide)
      (by simp [decomposeRun, cpdGo, converged, ratAbs]; norm_num)).2.1,
   (decompose_termination (fun n => [(3 : ℚ), 2, 1].getD n 0) 0 1 2
      [(3 : ℚ), 2] false (by decide)
      (by simp [decomposeRun, cpdGo, converged, ratAbs]; norm_num)).2.2.1⟩

/-- C8 counterexample: the fallback is not per mode.  At the shape
(4, 5, 6) and rank 5 of the cited test, mode 1 has dimension 5 ≥ 5, yet
the program hands it the random matrix — not the leading left singular
vectors — and a warning is surfaced, because one infeasible mode (the
first, of dimension 4) triggers the fallback for every mode. -/
theorem initFmatSvd_not_per_mode :
    (initFmatSvd [4, 5, 6] 5 (fun _ => Mat.mk 1 1 [1]) (fun _ => Mat.mk 1 1 [0])).1.getD 1
        (idMat 0) = Mat.mk 1 1 [0] ∧
    (initFmatSvd [4, 5, 6] 5 (fun _ => Mat.mk 1 1 [1]) (fun _ => Mat.mk 1 1 [0])).2 = true ∧
    5 ≤ [4, 5, 6].getD 1 0 ∧
    Mat.mk 1 1 [(0 : ℚ)] ≠ Mat.mk 1 1 [1] := by
  refine ⟨rfl, rfl, by decide, ?_⟩
  intro hcontra
  have := congrArg Mat.data hcontra
  simp at this

/-- C8 (amended): with init svd, if the requested rank exceeds the
dimension of any mode (rank > min(tensor.shape)), _init_fmat surfaces a
runtime warning and falls back to a random matrix for EVERY mode;
otherwise no warning is raised, every mode receives the leading rank
left singular vectors of its unfolding (the svdF oracle), and — left
singular vectors being orthonormal, the horth hypothesis — every factor
matrix has orthonormal columns. -/
theorem initFmatSvd_global_spec (shape : List Nat) (rank : Nat) (svdF randF : Nat → Mat)
    (horth : ∀ n, n < shape.length → rank ≤ shape.getD n 0 → orthonormalCols (svdF n)) :
    ((initFmatSvd shape rank svdF randF).2 = true ↔
      (shape.any fun d => d < rank) = true) ∧
    ((shape.any fun d => d < rank) = true →
      (initFmatSvd shape rank svdF randF).1 = (List.range shape.length).map randF) ∧
    ((shape.any fun d => d < rank) = false →
      (initFmatSvd shape rank svdF randF).1 = (List.range shape.length).map svdF ∧
      ∀ n, n < shape.length →
        (initFmatSvd shape rank svdF randF).1.getD n (idMat 0) = svdF n ∧
        orthonormalCols ((initFmatSvd shape rank svdF randF).1.getD n (idMat 0))) := by
  by_cases hc : (shape.any fun d => d < rank) = true
  · rw [initFmatSvd, if_pos hc]
    exact ⟨iff_of_true rfl hc, fun _ => rfl,
      fun hfalse => absurd hc (by rw [hfalse]; exact Bool.false_ne_true)⟩
  · have hc2 : (shape.any fun d => d < rank) = false := by
      rwa [Bool.not_eq_true] at hc
    rw [initFmatSvd, if_neg hc]
    have hfeas : ∀ n, n < shape.length → rank ≤ shape.getD n 0 := by
      intro n hn
      have hmem : shape.getD n 0 ∈ shape := by
        rw [List.getD_eq_getElem _ _ hn]
        exact List.getElem_mem hn
      have h2 := (List.any_eq_false.mp hc2) _ hmem
      simp at h2
      rwa [List.getD_eq_getD_get?, List.get?_eq_getElem?]
    refine ⟨iff_of_false Bool.false_ne_true (by rw [hc2]; exact Bool.false_ne_true), ?_, ?_⟩
    · intro htrue
      exact absurd htrue (by rw [hc2]; exact Bool.false_ne_true)
    · intro _
      refine ⟨rfl, fun n hn => ?_⟩
      have hget : ((List.range shape.length).map svdF).getD n (idMat 0) = svdF n :=
        getD_rangeMap _ _ _ _ hn
      exact ⟨hget, hget ▸ horth n hn (hfeas n hn)⟩

/-- Witness for C8 (amended) at shape (0, 1), rank 1: the first mode has
dimension 0 below the rank, so the fallback fires and the warning is
surfaced; the SVD oracle of the feasible mode is the orthonormal 1-by-1
identity. -/
theorem initFmatSvd_global_spec_witness :
    (initFmatSvd [0, 1] 1 (fun _ => Mat.mk 1 1 [1]) (fun _ => Mat.mk 0 1 [])).2 = true ↔
      ([0, 1].any fun d => d < 1) = true :=
  (initFmatSvd_global_spec [0, 1] 1 (fun _ => Mat.mk 1 1 [1]) (fun _ => Mat.mk 0 1 [])
    (by
      intro n hn3 hr
      have hn2 : n < 2 := by simpa using hn3
      interval_cases n
      · exact absurd hr (by decide)
      · show orthonormalCols (Mat.mk 1 1 [1])
        rw [orthonormalCols]
        simp [matMul, Mat.transpose, idMat, Mat.entry, List.range_succ])).1

end Hottbox
